import Mathlib

/-!
Verification of the furigana chunking / merge / repeat-suppression engine.

Shallow embedding of the engine found in `src/utils/furiganaProcessor.ts`
and its helper module (`splitTextIntoChunks`, `applyInkBracketRuby`,
`applyXhtmlRuby`).  JS strings are modelled as `List Char` (sequences of
Unicode scalars); `TextEncoder().encode(ch).length` is modelled by the
UTF-8 width of the scalar.  The external annotation service is modelled as
a capability `Str → Except Unit (List Word)`.
-/

namespace Furigana

/-- A JS string, modelled as a list of Unicode scalar characters. -/
abbrev Str := List Char

/-- UTF-8 byte width of one character (what `new TextEncoder().encode(char).length`
computes for a BMP character). -/
def utf8Len (c : Char) : Nat :=
  if c.toNat < 0x80 then 1
  else if c.toNat < 0x800 then 2
  else if c.toNat < 0x10000 then 3
  else 4

/-- UTF-8 byte length of a string. -/
def byteLen (s : Str) : Nat := (s.map utf8Len).sum

/-- The kanji test used throughout the source: the regex `[一-龯]`. -/
def isKanji (c : Char) : Bool := decide (0x4e00 ≤ c.toNat) && decide (c.toNat ≤ 0x9faf)

/-- Whitespace predicate backing the model of `String.prototype.trim`
(the common JS whitespace characters). -/
def isWs (c : Char) : Bool :=
  c == ' ' || c == '\t' || c == '\n' || c == '\r' || c == '\u000b' || c == '\u000c' ||
  c == '\u00A0' || c == '\u2028' || c == '\u2029' || c == '\u3000' || c == '\uFEFF'

/-- Model of `String.prototype.trim`: drop whitespace at both ends. -/
def trim (s : Str) : Str := ((s.dropWhile isWs).reverse.dropWhile isWs).reverse

/-- The literal page-break token `｛改頁｝`. -/
def pageBreakMarker : Str := "｛改頁｝".data

/-- Index of the first occurrence of `sep` in `s` (model of
`String.prototype.indexOf` searching from position 0). -/
def findPrefixIdx (sep : Str) : Str → Option Nat
  | [] => if sep.isEmpty then some 0 else none
  | c :: t => if sep.isPrefixOf (c :: t) then some 0 else (findPrefixIdx sep t).map (· + 1)

/-- Model of `text.includes(sep)`. -/
def occursIn (sep s : Str) : Bool := (findPrefixIdx sep s).isSome

/-- Model of `text.indexOf(sep, start)` for `start ≤ text.length`
(the only situation arising in the engine): `none` stands for `-1`. -/
def findFrom (text sep : Str) (start : Nat) : Option Nat :=
  (findPrefixIdx sep (text.drop start)).map (· + start)

lemma isPrefixOf_eq (l₁ l₂ : Str) : l₁.isPrefixOf l₂ = true ↔ l₁ <+: l₂ :=
  List.isPrefixOf_iff_prefix

lemma take_pref (l : Str) (n : Nat) : l.take n <+: l := List.take_prefix n l

lemma findPrefixIdx_bound {sep s : Str} {i : Nat} (h : findPrefixIdx sep s = some i) :
    sep <+: s.drop i ∧ i + sep.length ≤ s.length := by
  induction s generalizing i with
  | nil =>
    unfold findPrefixIdx at h
    by_cases hsep : sep.isEmpty
    · simp [hsep] at h
      subst h
      simp [List.isEmpty_iff.mp hsep]
    · simp [hsep] at h
  | cons c t ih =>
    unfold findPrefixIdx at h
    by_cases hp : sep.isPrefixOf (c :: t)
    · simp [hp] at h
      subst h
      have := (isPrefixOf_eq sep (c :: t)).mp hp
      exact ⟨by simpa using this, by simpa using this.length_le⟩
    · simp [hp] at h
      obtain ⟨j, hj, rfl⟩ := h
      obtain ⟨h1, h2⟩ := ih hj
      refine ⟨by simpa using h1, ?_⟩
      simpa [Nat.add_assoc, Nat.add_comm, Nat.add_left_comm] using Nat.add_le_add_right h2 1

lemma findPrefixIdx_min {sep s : Str} {i : Nat} (h : findPrefixIdx sep s = some i) :
    ∀ j, j < i → ¬ sep <+: s.drop j := by
  induction s generalizing i with
  | nil =>
    unfold findPrefixIdx at h
    by_cases hsep : sep.isEmpty
    · simp [hsep] at h
      omega
    · simp [hsep] at h
  | cons c t ih =>
    unfold findPrefixIdx at h
    by_cases hp : sep.isPrefixOf (c :: t)
    · simp [hp] at h
      omega
    · simp [hp] at h
      obtain ⟨j₀, hj₀, rfl⟩ := h
      intro j hj
      cases j with
      | zero =>
        intro hpre
        exact hp ((isPrefixOf_eq sep (c :: t)).mpr (by simpa using hpre))
      | succ k =>
        have := ih hj₀ k (by omega)
        simpa using this

lemma findPrefixIdx_none {sep s : Str} (h : findPrefixIdx sep s = none) :
    ∀ j, ¬ sep <+: s.drop j := by
  induction s with
  | nil =>
    unfold findPrefixIdx at h
    by_cases hsep : sep.isEmpty
    · simp [hsep] at h
    · intro j hpre
      rw [List.drop_nil] at hpre
      exact hsep (by simpa [List.isEmpty_iff] using List.prefix_nil.mp hpre)
  | cons c t ih =>
    unfold findPrefixIdx at h
    by_cases hp : sep.isPrefixOf (c :: t)
    · simp [hp] at h
    · simp [hp] at h
      intro j
      cases j with
      | zero =>
        intro hpre
        exact hp ((isPrefixOf_eq sep (c :: t)).mpr (by simpa using hpre))
      | succ k => simpa using ih h k

lemma drop_of_occurrence {sep s : Str} {i : Nat} (h : sep <+: s.drop i) :
    s.drop i = sep ++ s.drop (i + sep.length) := by
  obtain ⟨t, ht⟩ := h
  have hdrop : s.drop (i + sep.length) = t := by
    have : (s.drop i).drop sep.length = t := by
      rw [← ht, List.drop_left]
    rw [← this, List.drop_drop, Nat.add_comm]
  rw [hdrop, ← ht]

/-- Model of `String.prototype.split(sep)` for a separator string
(the JS behaviour for non-empty separators; the engine only splits on the
non-empty `｛改頁｝` token). -/
def jsSplit (sep : Str) (s : Str) : List Str :=
  if hsep : sep.isEmpty then [s]
  else
    match hf : findPrefixIdx sep s with
    | none => [s]
    | some i => s.take i :: jsSplit sep (s.drop (i + sep.length))
termination_by s.length
decreasing_by
  have hb := (findPrefixIdx_bound hf).2
  have hlen : 0 < sep.length := by
    cases sep with
    | nil => simp at hsep
    | cons a l => simp
  simp only [List.length_drop]
  omega

lemma jsSplit_eq_empty {sep : Str} (s : Str) (h : sep.isEmpty = true) :
    jsSplit sep s = [s] := by
  rw [jsSplit, dif_pos h]

lemma jsSplit_eq_none {sep s : Str} (h1 : sep.isEmpty = false) (h2 : findPrefixIdx sep s = none) :
    jsSplit sep s = [s] := by
  rw [jsSplit, dif_neg (by simp [h1])]
  split
  · rfl
  · next j hf => rw [h2] at hf; cases hf

lemma jsSplit_eq_some {sep s : Str} {i : Nat} (h1 : sep.isEmpty = false)
    (h2 : findPrefixIdx sep s = some i) :
    jsSplit sep s = s.take i :: jsSplit sep (s.drop (i + sep.length)) := by
  rw [jsSplit, dif_neg (by simp [h1])]
  split
  · next hf => rw [h2] at hf; cases hf
  · next j hf =>
    rw [h2] at hf
    injection hf with h
    subst h
    rfl

lemma jsSplit_ne_nil (sep s : Str) : jsSplit sep s ≠ [] := by
  by_cases hsep : sep.isEmpty
  · rw [jsSplit_eq_empty s hsep]
    simp
  · cases hf : findPrefixIdx sep s with
    | none => rw [jsSplit_eq_none (by simpa using hsep) hf]; simp
    | some i => rw [jsSplit_eq_some (by simpa using hsep) hf]; simp

lemma intercalate_cons_of_ne_nil (sep x : Str) (xs : List Str) (h : xs ≠ []) :
    List.intercalate sep (x :: xs) = x ++ sep ++ List.intercalate sep xs := by
  cases xs with
  | nil => exact absurd rfl h
  | cons y ys => simp [List.intercalate, List.intersperse, List.append_assoc]

lemma jsSplit_intercalate (sep s : Str) : List.intercalate sep (jsSplit sep s) = s := by
  induction s using jsSplit.induct sep with
  | case1 s hsep => rw [jsSplit_eq_empty s hsep]; simp [List.intercalate]
  | case2 s hsep hf =>
    rw [jsSplit_eq_none (by simpa using hsep) hf]
    simp [List.intercalate]
  | case3 s hsep i hf ih =>
    rw [jsSplit_eq_some (by simpa using hsep) hf]
    rw [intercalate_cons_of_ne_nil _ _ _ (jsSplit_ne_nil sep _), ih]
    have h1 := (findPrefixIdx_bound hf).1
    calc s.take i ++ sep ++ s.drop (i + sep.length)
        = s.take i ++ (sep ++ s.drop (i + sep.length)) := by
          rw [List.append_assoc]
      _ = s.take i ++ s.drop i := by rw [← drop_of_occurrence h1]
      _ = s := List.take_append_drop i s

lemma mem_jsSplit_not_occurs {sep : Str} (hsep : sep.isEmpty = false) (s : Str) :
    ∀ p ∈ jsSplit sep s, occursIn sep p = false := by
  induction s using jsSplit.induct sep with
  | case1 s h => rw [h] at hsep; cases hsep
  | case2 s h hf =>
    intro p hp
    rw [jsSplit_eq_none hsep hf] at hp
    simp at hp
    subst hp
    simp [occursIn, hf]
  | case3 s h i hf ih =>
    intro p hp
    rw [jsSplit_eq_some hsep hf] at hp
    simp at hp
    rcases hp with hp | hp
    · subst hp
      by_contra hocc
      simp only [occursIn, Bool.not_eq_false, Option.isSome_iff_exists] at hocc
      obtain ⟨j, hj⟩ := hocc
      obtain ⟨hpre, hlenb⟩ := findPrefixIdx_bound hj
      have hslen : 0 < sep.length := by
        cases sep with
        | nil => simp at hsep
        | cons a l => simp
      have htake : (s.take i).length ≤ i := by
        simp
      have hji : j + sep.length ≤ i := le_trans hlenb htake
      have hpre2 : sep <+: s.drop j := by
        have hdt : (s.take i).drop j = (s.drop j).take (i - j) := List.drop_take ..
        rw [hdt] at hpre
        exact hpre.trans (take_pref _ _)
      exact findPrefixIdx_min hf j (by omega) hpre2
    · exact ih p hp

/-! ## ChunkSplitter

Embedding of `splitTextIntoChunks(text, maxLength = 4000)` from the helper
module: a character-by-character scan that flushes the current chunk whenever
adding the next character would push its UTF-8 byte length over `maxLength`.
It does not treat line boundaries or the page-break token specially; page
break markers stay inline in the chunk texts. -/

/-- One step of the splitting loop body. -/
def splitStep (maxLength : Nat) (st : List Str × Str × Nat) (c : Char) : List Str × Str × Nat :=
  if maxLength < st.2.2 + utf8Len c then (st.1 ++ [st.2.1], [c], utf8Len c)
  else (st.1, st.2.1 ++ [c], st.2.2 + utf8Len c)

/-- `splitTextIntoChunks` from the helper module (the caller in
`FuriganaProcessor.process` uses the default `maxLength = 4000`). -/
def splitTextIntoChunks (text : Str) (maxLength : Nat) : List Str :=
  let r := text.foldl (splitStep maxLength) ([], [], 0)
  if r.2.1.isEmpty then r.1 else r.1 ++ [r.2.1]

lemma byteLen_nil : byteLen [] = 0 := rfl

lemma byteLen_cons (c : Char) (t : Str) : byteLen (c :: t) = utf8Len c + byteLen t := by
  simp [byteLen]

lemma splitStep_flatten (maxLength : Nat) (t : Str) :
    ∀ cs cur len, ((t.foldl (splitStep maxLength) (cs, cur, len)).1.flatten ++
      (t.foldl (splitStep maxLength) (cs, cur, len)).2.1) = cs.flatten ++ cur ++ t := by
  induction t with
  | nil => intro cs cur len; simp
  | cons c t ih =>
    intro cs cur len
    rw [List.foldl_cons]
    by_cases hc : maxLength < len + utf8Len c
    · have hstep : splitStep maxLength (cs, cur, len) c = (cs ++ [cur], [c], utf8Len c) := by
        simp [splitStep, hc]
      rw [hstep, ih]
      simp [List.append_assoc]
    · have hstep : splitStep maxLength (cs, cur, len) c = (cs, cur ++ [c], len + utf8Len c) := by
        simp [splitStep, hc]
      rw [hstep, ih]
      simp [List.append_assoc]

lemma foldl_splitStep_no_overflow (maxLength : Nat) (t : Str) :
    ∀ cs cur len, len + byteLen t ≤ maxLength →
      t.foldl (splitStep maxLength) (cs, cur, len) = (cs, cur ++ t, len + byteLen t) := by
  induction t with
  | nil => intro cs cur len _; simp [byteLen_nil]
  | cons c t ih =>
    intro cs cur len h
    rw [byteLen_cons] at h
    have hc : ¬ maxLength < len + utf8Len c := by omega
    rw [List.foldl_cons]
    have hstep : splitStep maxLength (cs, cur, len) c = (cs, cur ++ [c], len + utf8Len c) := by
      simp [splitStep, hc]
    rw [hstep, ih cs (cur ++ [c]) (len + utf8Len c) (by omega)]
    rw [byteLen_cons]
    simp [List.append_assoc]
    omega

lemma foldl_splitStep_chunks_mono (maxLength : Nat) (t : Str) :
    ∀ st : List Str × Str × Nat,
      st.1.length ≤ (t.foldl (splitStep maxLength) st).1.length := by
  induction t with
  | nil => intro st; simp
  | cons c t ih =>
    intro st
    rw [List.foldl_cons]
    refine le_trans ?_ (ih (splitStep maxLength st c))
    by_cases hc : maxLength < st.2.2 + utf8Len c
    · simp [splitStep, hc]
    · simp [splitStep, hc]

lemma foldl_splitStep_flush (maxLength : Nat) (t : Str) :
    ∀ cs cur len, len ≤ maxLength → maxLength < len + byteLen t →
      cs.length + 1 ≤ ((t.foldl (splitStep maxLength) (cs, cur, len)).1).length := by
  induction t with
  | nil =>
    intro cs cur len h1 h2
    rw [byteLen_nil] at h2
    omega
  | cons c t ih =>
    intro cs cur len h1 h2
    rw [byteLen_cons] at h2
    rw [List.foldl_cons]
    by_cases hc : maxLength < len + utf8Len c
    · have hstep : splitStep maxLength (cs, cur, len) c = (cs ++ [cur], [c], utf8Len c) := by
        simp [splitStep, hc]
      rw [hstep]
      have := foldl_splitStep_chunks_mono maxLength t (cs ++ [cur], [c], utf8Len c)
      simp at this
      omega
    · have hstep : splitStep maxLength (cs, cur, len) c = (cs, cur ++ [c], len + utf8Len c) := by
        simp [splitStep, hc]
      rw [hstep]
      exact ih cs (cur ++ [c]) (len + utf8Len c) (by omega) (by omega)

lemma foldl_splitStep_cur_ne_nil (maxLength : Nat) (t : Str) (ht : t ≠ []) :
    ∀ st : List Str × Str × Nat, (t.foldl (splitStep maxLength) st).2.1 ≠ [] := by
  induction t with
  | nil => exact absurd rfl ht
  | cons c t ih =>
    intro st
    rw [List.foldl_cons]
    cases t with
    | nil =>
      by_cases hc : maxLength < st.2.2 + utf8Len c
      · simp [splitStep, hc]
      · simp [splitStep, hc]
    | cons d t₂ => exact ih (by simp) (splitStep maxLength st c)

/-! ## RepeatSuppressor

Embedding of the `SkipInfo` table and the private methods
`shouldSkipRuby` / `updateSkipInfo`, plus the public `decrementSkipCounts`,
from `FuriganaProcessor`.  The JS object used as a map is modelled as an
association list with at most one binding per key. -/

/-- The `SkipInfo` table: kanji character to remaining suppression count. -/
abbrev SkipInfo := List (Char × Int)

/-- `this.skipInfo[char] = v` on a JS object: replace the existing binding
or append a new one. -/
def setSkip : SkipInfo → Char → Int → SkipInfo
  | [], c, v => [(c, v)]
  | (k, w) :: t, c, v => if k == c then (c, v) :: t else (k, w) :: setSkip t c v

/-- The test `this.skipInfo[char] && this.skipInfo[char] > 0` (a JS number
is truthy iff nonzero, so the conjunction holds iff the entry exists and is
positive). -/
def entryPositive (st : SkipInfo) (c : Char) : Bool :=
  match st.lookup c with
  | some v => decide (0 < v)
  | none => false

def hasKanji (s : Str) : Bool := s.any isKanji

/-- `shouldSkipRuby(surface)`: true iff the surface contains a kanji whose
skip entry is present and positive. -/
def shouldSkipRuby (st : SkipInfo) (surface : Str) : Bool :=
  if hasKanji surface = false then false
  else surface.any fun c => isKanji c && entryPositive st c

/-- `updateSkipInfo(surface)`: no-op when the configured skip length is ≤ 0,
otherwise set every kanji of the surface to the configured skip length. -/
def updateSkipInfo (skipLength : Int) (st : SkipInfo) (surface : Str) : SkipInfo :=
  if skipLength ≤ 0 then st
  else surface.foldl (fun s c => if isKanji c then setSkip s c skipLength else s) st

/-- `decrementSkipCounts()`: decrement every positive entry.  (Public method
of `FuriganaProcessor`; no call site exists anywhere in the repository.) -/
def decrementSkipCounts (st : SkipInfo) : SkipInfo :=
  st.map fun e => if 0 < e.2 then (e.1, e.2 - 1) else e

/-! ## RubyRenderer and the annotated-word data model -/

/-- The two ruby styles (`'墨つき括弧'` and `'XHTML'` in the source). -/
inductive RubyStyle where
  | inkBracket
  | xhtml
deriving DecidableEq

/-- `applyInkBracketRuby(surface, furigana)` from the helper module. -/
def applyInkBracketRuby (surface furigana : Str) : Str :=
  surface ++ "《".data ++ furigana ++ "》".data

/-- `applyXhtmlRuby(surface, furigana)` from the helper module. -/
def applyXhtmlRuby (surface furigana : Str) : Str :=
  "<ruby>".data ++ surface ++ "<rt>".data ++ furigana ++ "</rt></ruby>".data

/-- The style dispatch `if (this.rubyStyle === '墨つき括弧') ... else ...`. -/
def renderRuby (style : RubyStyle) (surface furigana : Str) : Str :=
  match style with
  | RubyStyle.inkBracket => applyInkBracketRuby surface furigana
  | RubyStyle.xhtml => applyXhtmlRuby surface furigana

/-- A subword returned by the service (`SubWord` in `types/index.ts`). -/
structure SubWord where
  surface : Str
  furigana : Option Str
  roman : Option Str
deriving DecidableEq

/-- An annotated word returned by the service (`Word` in `types/index.ts`);
an absent `subword` field is modelled as the empty list. -/
structure Word where
  surface : Str
  furigana : Option Str
  roman : Option Str
  subword : List SubWord
deriving DecidableEq

/-- JS truthiness of an optional string: `undefined` and `""` are falsy. -/
def truthyStr : Option Str → Bool
  | none => false
  | some s => !s.isEmpty

/-! ## AnnotationMerger (`applyRubyFromResponse` / `applyRubyToWord`)

State-passing embedding of the private methods of `FuriganaProcessor`:
the mutable `this.skipInfo` becomes an explicit `SkipInfo` argument and
result. -/

/-- The subword loop inside `applyRubyToWord`: walk the word surface with a
cursor, aligning each subword at its first occurrence at or after the
cursor; a subword that cannot be found is skipped without advancing the
cursor (the `startPos === -1` guard). -/
def applySubwords (N : Int) (style : RubyStyle) (wsurface : Str) :
    SkipInfo → Nat → List SubWord → Str × SkipInfo
  | st, cursor, [] => (wsurface.drop cursor, st)
  | st, cursor, sw :: rest =>
    match findFrom wsurface sw.surface cursor with
    | none => applySubwords N style wsurface st cursor rest
    | some start =>
      let gap := (wsurface.drop cursor).take (start - cursor)
      let piece :=
        if truthyStr sw.furigana then
          if shouldSkipRuby st sw.surface then (sw.surface, st)
          else (renderRuby style sw.surface (sw.furigana.getD []),
                updateSkipInfo N st sw.surface)
        else (sw.surface, st)
      let rest₁ := applySubwords N style wsurface piece.2 (start + sw.surface.length) rest
      (gap ++ piece.1 ++ rest₁.1, rest₁.2)

/-- `applyRubyToWord(word)`: render one word, consulting and updating the
skip table. -/
def applyRubyToWord (N : Int) (style : RubyStyle) (st : SkipInfo) (w : Word) :
    Str × SkipInfo :=
  if truthyStr w.furigana = false then (w.surface, st)
  else if w.subword.isEmpty = false then applySubwords N style w.surface st 0 w.subword
  else if shouldSkipRuby st w.surface then (w.surface, st)
  else (renderRuby style w.surface (w.furigana.getD []), updateSkipInfo N st w.surface)

/-- The word loop of `applyRubyFromResponse`: walk the chunk text with a
cursor; each word is rendered first (`applyRubyToWord`, which may update the
table), then aligned at the first occurrence of its surface at or after the
cursor; on an alignment miss (`startPos === -1`) the rendered output is
discarded and the cursor is not advanced. -/
def applyFrom (N : Int) (style : RubyStyle) (chunk : Str) :
    SkipInfo → Nat → List Word → Str × SkipInfo
  | st, cursor, [] => (chunk.drop cursor, st)
  | st, cursor, w :: ws =>
    let pw := applyRubyToWord N style st w
    match findFrom chunk w.surface cursor with
    | none => applyFrom N style chunk pw.2 cursor ws
    | some start =>
      let rest := applyFrom N style chunk pw.2 (start + w.surface.length) ws
      ((chunk.drop cursor).take (start - cursor) ++ pw.1 ++ rest.1, rest.2)

/-- `applyRubyFromResponse(response, originalText)` (the embedding receives
the word list of the response directly). -/
def applyRubyFromResponse (N : Int) (style : RubyStyle) (st : SkipInfo)
    (chunk : Str) (words : List Word) : Str × SkipInfo :=
  applyFrom N style chunk st 0 words

/-! ## DocumentProcessor (`FuriganaProcessor.process` / `processChunk`)

The external annotation service is a capability `Str → Except Unit (List Word)`;
`Except.error` stands for any thrown/propagated request failure.  The
`try`/`catch` pair (`processChunk` rethrows, `process` catches and appends the
raw text) nets to: on failure the chunk contributes its raw text and the skip
table is left untouched. -/

/-- `processChunk(chunk)`: whitespace-only chunks are returned as-is without
calling the service; on a service error the raw chunk is the output and the
skip table is unchanged. -/
def processChunk (annot : Str → Except Unit (List Word)) (N : Int) (style : RubyStyle)
    (st : SkipInfo) (chunk : Str) : Str × SkipInfo :=
  if (trim chunk).isEmpty then (chunk, st)
  else
    match annot chunk with
    | Except.error _ => (chunk, st)
    | Except.ok words => applyRubyFromResponse N style st chunk words

/-- The loop of `process` over `chunk.split('｛改頁｝')`: empty parts are
skipped; after every part except the last, the marker is re-emitted and the
skip table is reset to the empty table. -/
def processParts (annot : Str → Except Unit (List Word)) (N : Int) (style : RubyStyle) :
    SkipInfo → List Str → Str × SkipInfo
  | st, [] => ([], st)
  | st, [p] => if p.isEmpty then ([], st) else processChunk annot N style st p
  | st, p :: q :: rest =>
    let out := if p.isEmpty then (([] : Str), st) else processChunk annot N style st p
    let rest₁ := processParts annot N style [] (q :: rest)
    (out.1 ++ pageBreakMarker ++ rest₁.1, rest₁.2)

/-- The chunk loop of `process`: a chunk containing the page-break marker is
split on it and handled by `processParts`; other chunks go straight to
`processChunk`. -/
def processState (annot : Str → Except Unit (List Word)) (N : Int) (style : RubyStyle) :
    SkipInfo → List Str → Str × SkipInfo
  | st, [] => ([], st)
  | st, chunk :: rest =>
    let out :=
      if occursIn pageBreakMarker chunk then
        processParts annot N style st (jsSplit pageBreakMarker chunk)
      else processChunk annot N style st chunk
    let rest₁ := processState annot N style out.2 rest
    (out.1 ++ rest₁.1, rest₁.2)

/-- `FuriganaProcessor.process(text)`: split into chunks with the default
4000-byte budget, then process each chunk in order starting from an empty
skip table. -/
def process (annot : Str → Except Unit (List Word)) (N : Int) (style : RubyStyle)
    (text : Str) : Str :=
  (processState annot N style [] (splitTextIntoChunks text 4000)).1

/-- The texts handed to `requestFurigana` while processing one chunk of the
splitter (following the exact control flow of `process`/`processChunk`:
whitespace-only texts are filtered out before the request is made). -/
def sentOfChunk (chunk : Str) : List Str :=
  if (trim chunk).isEmpty then [] else [chunk]

/-- The texts handed to `requestFurigana` along the `processParts` loop. -/
def sentOfParts : List Str → List Str
  | [] => []
  | [p] => if p.isEmpty then [] else sentOfChunk p
  | p :: q :: rest =>
    (if p.isEmpty then [] else sentOfChunk p) ++ sentOfParts (q :: rest)

/-- All texts handed to `requestFurigana` during `process(text)`, in order. -/
def sentTexts (text : Str) : List Str :=
  ((splitTextIntoChunks text 4000).map fun chunk =>
    if occursIn pageBreakMarker chunk then sentOfParts (jsSplit pageBreakMarker chunk)
    else sentOfChunk chunk).flatten

/-! ## Aligned-run decomposition of the merge step

`alignFrom` records, along the exact cursor discipline of `applyFrom`, how
the chunk decomposes into copy-through spans, gloss candidates, and
alignment misses; `renderRuns` replays the rendering decisions over that
decomposition. -/

/-- One aligned run of a chunk. -/
inductive Run where
  | copy (s : Str)
  | cand (w : Word)
  | miss (w : Word)
deriving DecidableEq

/-- Decompose `chunk` from a cursor position against a word list, mirroring
the alignment walk of `applyFrom`. -/
def alignFrom (chunk : Str) : Nat → List Word → List Run
  | cursor, [] => [Run.copy (chunk.drop cursor)]
  | cursor, w :: ws =>
    match findFrom chunk w.surface cursor with
    | none => Run.miss w :: alignFrom chunk cursor ws
    | some start =>
      Run.copy ((chunk.drop cursor).take (start - cursor)) :: Run.cand w ::
        alignFrom chunk (start + w.surface.length) ws

/-- The text a run contributes to the raw chunk: copy spans contribute their
text, gloss candidates their surface, misses nothing. -/
def runText : Run → Str
  | Run.copy s => s
  | Run.cand w => w.surface
  | Run.miss _ => []

def runsText (rs : List Run) : Str := (rs.map runText).flatten

/-- Replay the rendering over a run list: copy spans pass through, gloss
candidates and misses are pushed through `applyRubyToWord` (a miss discards
the rendered output but keeps the table update, exactly as the source
does). -/
def renderRuns (N : Int) (style : RubyStyle) : SkipInfo → List Run → Str × SkipInfo
  | st, [] => ([], st)
  | st, Run.copy s :: rs =>
    let r := renderRuns N style st rs
    (s ++ r.1, r.2)
  | st, Run.cand w :: rs =>
    let pw := applyRubyToWord N style st w
    let r := renderRuns N style pw.2 rs
    (pw.1 ++ r.1, r.2)
  | st, Run.miss w :: rs =>
    let pw := applyRubyToWord N style st w
    renderRuns N style pw.2 rs

/-! ## Alignment lemmas -/

lemma findFrom_some {chunk sep : Str} {cursor start : Nat}
    (h : findFrom chunk sep cursor = some start) :
    cursor ≤ start ∧ sep <+: chunk.drop start := by
  unfold findFrom at h
  rw [Option.map_eq_some'] at h
  obtain ⟨i, hi, rfl⟩ := h
  have hb := (findPrefixIdx_bound hi).1
  rw [List.drop_drop, Nat.add_comm] at hb
  exact ⟨Nat.le_add_left cursor i, hb⟩

lemma drop_cursor_decomp {chunk sep : Str} {cursor start : Nat}
    (h : findFrom chunk sep cursor = some start) :
    chunk.drop cursor =
      (chunk.drop cursor).take (start - cursor) ++ sep ++ chunk.drop (start + sep.length) := by
  obtain ⟨hle, hpre⟩ := findFrom_some h
  have hdc : (chunk.drop cursor).drop (start - cursor) = chunk.drop start := by
    rw [List.drop_drop]
    congr 1
    omega
  have hocc := drop_of_occurrence hpre
  calc chunk.drop cursor
      = (chunk.drop cursor).take (start - cursor) ++ (chunk.drop cursor).drop (start - cursor) :=
        (List.take_append_drop _ _).symm
    _ = (chunk.drop cursor).take (start - cursor) ++ chunk.drop start := by rw [hdc]
    _ = (chunk.drop cursor).take (start - cursor) ++ (sep ++ chunk.drop (start + sep.length)) := by
        rw [← hocc]
    _ = (chunk.drop cursor).take (start - cursor) ++ sep ++ chunk.drop (start + sep.length) := by
        rw [List.append_assoc]

lemma runsText_alignFrom (chunk : Str) (ws : List Word) :
    ∀ cursor, runsText (alignFrom chunk cursor ws) = chunk.drop cursor := by
  induction ws with
  | nil => intro cursor; simp [alignFrom, runsText, runText]
  | cons w ws ih =>
    intro cursor
    rw [alignFrom]
    cases hf : findFrom chunk w.surface cursor with
    | none =>
      have ihc := ih cursor
      simp only [runsText] at ihc
      simp [runsText, runText, ihc]
    | some start =>
      simp only [runsText, List.map_cons, List.flatten_cons, runText]
      have ihs := ih (start + w.surface.length)
      simp only [runsText] at ihs
      rw [ihs, ← List.append_assoc]
      exact (drop_cursor_decomp hf).symm

lemma applyFrom_renderRuns (N : Int) (style : RubyStyle) (chunk : Str) (ws : List Word) :
    ∀ st cursor, applyFrom N style chunk st cursor ws =
      renderRuns N style st (alignFrom chunk cursor ws) := by
  induction ws with
  | nil => intro st cursor; simp [applyFrom, alignFrom, renderRuns]
  | cons w ws ih =>
    intro st cursor
    rw [applyFrom, alignFrom]
    cases hf : findFrom chunk w.surface cursor with
    | none => simp [renderRuns, ih]
    | some start =>
      simp only [renderRuns]
      rw [← ih]
      simp [List.append_assoc]

/-! ## Skip-table preservation machinery

Every mutation the engine ever performs on the table is `setSkip _ _ N`
(inside `updateSkipInfo`) or a reset to the empty table; the following
lemmas push an arbitrary predicate closed under those operations through
every layer of the engine. -/

lemma lookup_setSkip (st : SkipInfo) (c : Char) (v : Int) (k : Char) :
    (setSkip st c v).lookup k = if k = c then some v else st.lookup k := by
  induction st with
  | nil =>
    by_cases h : k = c
    · simp [setSkip, List.lookup, h]
    · have h' : (k == c) = false := by simpa using h
      simp [setSkip, List.lookup, h, h']
  | cons e t ih =>
    obtain ⟨k₀, w⟩ := e
    by_cases hkc : k₀ = c
    · subst hkc
      by_cases hk : k = k₀
      · subst hk
        simp [setSkip, List.lookup]
      · have hk' : (k == k₀) = false := by simpa using hk
        simp [setSkip, List.lookup, hk, hk']
    · have hkc' : (k₀ == c) = false := by simpa using hkc
      by_cases hk : k = k₀
      · subst hk
        have hne : ¬ k = c := fun h => hkc h
        simp [setSkip, List.lookup, hkc', hne]
      · have hk' : (k == k₀) = false := by simpa using hk
        simp [setSkip, List.lookup, hkc', hk', ih]

lemma pres_foldlSet {P : SkipInfo → Prop} {N : Int}
    (hset : ∀ st c, P st → P (setSkip st c N)) (surface : Str) :
    ∀ st, P st → P (surface.foldl (fun s c => if isKanji c then setSkip s c N else s) st) := by
  induction surface with
  | nil => intro st h; simpa using h
  | cons c t ih =>
    intro st h
    rw [List.foldl_cons]
    by_cases hc : isKanji c
    · simp only [hc, if_true]
      exact ih _ (hset st c h)
    · simp only [hc]
      simpa using ih _ h

lemma pres_updateSkipInfo {P : SkipInfo → Prop} {N : Int}
    (hset : ∀ st c, P st → P (setSkip st c N)) (surface : Str) (st : SkipInfo)
    (h : P st) : P (updateSkipInfo N st surface) := by
  unfold updateSkipInfo
  by_cases hn : N ≤ 0
  · simpa [hn] using h
  · simp only [hn, if_false]
    exact pres_foldlSet hset surface st h

lemma pres_applySubwords {P : SkipInfo → Prop} {N : Int}
    (hset : ∀ st c, P st → P (setSkip st c N)) (style : RubyStyle) (wsurface : Str)
    (subs : List SubWord) :
    ∀ st cursor, P st → P (applySubwords N style wsurface st cursor subs).2 := by
  induction subs with
  | nil => intro st cursor h; simpa [applySubwords] using h
  | cons sw rest ih =>
    intro st cursor h
    rw [applySubwords]
    cases hf : findFrom wsurface sw.surface cursor with
    | none => exact ih st cursor h
    | some start =>
      simp only
      by_cases ht : truthyStr sw.furigana
      · by_cases hs : shouldSkipRuby st sw.surface
        · simp only [ht, hs, if_true]
          exact ih _ _ h
        · simp only [ht, hs, if_true, if_false]
          exact ih _ _ (pres_updateSkipInfo hset sw.surface st h)
      · simp only [ht, if_false]
        exact ih _ _ h

lemma pres_applyRubyToWord {P : SkipInfo → Prop} {N : Int}
    (hset : ∀ st c, P st → P (setSkip st c N)) (style : RubyStyle) (w : Word)
    (st : SkipInfo) (h : P st) : P (applyRubyToWord N style st w).2 := by
  unfold applyRubyToWord
  by_cases h1 : truthyStr w.furigana = false
  · simpa [h1] using h
  · simp only [h1, if_false]
    by_cases h2 : w.subword.isEmpty = false
    · simp only [h2, if_true]
      exact pres_applySubwords hset style w.surface w.subword st 0 h
    · simp only [h2, if_false]
      by_cases h3 : shouldSkipRuby st w.surface
      · simpa [h3] using h
      · simp only [h3, if_false]
        exact pres_updateSkipInfo hset w.surface st h

lemma pres_applyFrom {P : SkipInfo → Prop} {N : Int}
    (hset : ∀ st c, P st → P (setSkip st c N)) (style : RubyStyle) (chunk : Str)
    (ws : List Word) :
    ∀ st cursor, P st → P (applyFrom N style chunk st cursor ws).2 := by
  induction ws with
  | nil => intro st cursor h; simpa [applyFrom] using h
  | cons w rest ih =>
    intro st cursor h
    rw [applyFrom]
    cases hf : findFrom chunk w.surface cursor with
    | none => exact ih _ _ (pres_applyRubyToWord hset style w st h)
    | some start =>
      simp only
      exact ih _ _ (pres_applyRubyToWord hset style w st h)

lemma pres_processChunk {P : SkipInfo → Prop} {N : Int}
    (hset : ∀ st c, P st → P (setSkip st c N))
    (annot : Str → Except Unit (List Word)) (style : RubyStyle) (chunk : Str)
    (st : SkipInfo) (h : P st) : P (processChunk annot N style st chunk).2 := by
  unfold processChunk
  by_cases h1 : (trim chunk).isEmpty
  · simpa [h1] using h
  · simp only [h1, if_false]
    cases annot chunk with
    | error e => simpa using h
    | ok words => exact pres_applyFrom hset style chunk words st 0 h

lemma pres_processParts {P : SkipInfo → Prop} {N : Int}
    (hset : ∀ st c, P st → P (setSkip st c N)) (hnil : P [])
    (annot : Str → Except Unit (List Word)) (style : RubyStyle) (parts : List Str) :
    ∀ st, P st → P (processParts annot N style st parts).2 := by
  induction parts with
  | nil => intro st h; simpa [processParts] using h
  | cons p rest ih =>
    intro st h
    cases rest with
    | nil =>
      rw [processParts]
      by_cases hp : p.isEmpty
      · simpa [hp] using h
      · simp only [hp, if_false]
        exact pres_processChunk hset annot style p st h
    | cons q rest₂ =>
      rw [processParts]
      exact ih [] hnil

lemma pres_processState {P : SkipInfo → Prop} {N : Int}
    (hset : ∀ st c, P st → P (setSkip st c N)) (hnil : P [])
    (annot : Str → Except Unit (List Word)) (style : RubyStyle) (chunks : List Str) :
    ∀ st, P st → P (processState annot N style st chunks).2 := by
  induction chunks with
  | nil => intro st h; simpa [processState] using h
  | cons chunk rest ih =>
    intro st h
    rw [processState]
    simp only
    by_cases hc : occursIn pageBreakMarker chunk
    · simp only [hc, if_true]
      exact ih _ (pres_processParts hset hnil annot style _ st h)
    · simp only [hc, if_false]
      exact ih _ (pres_processChunk hset annot style chunk st h)

/-! ## Further helper lemmas -/

lemma shouldSkipRuby_nil (surface : Str) : shouldSkipRuby [] surface = false := by
  unfold shouldSkipRuby
  by_cases h1 : hasKanji surface = false
  · simp [h1]
  · simp only [h1, if_false]
    have he : ∀ c, entryPositive ([] : SkipInfo) c = false := fun c => rfl
    simp [he]

lemma shouldSkipRuby_of_mem {st : SkipInfo} {k : Char} {surface : Str}
    (hk : isKanji k = true) (hmem : k ∈ surface) (hpos : entryPositive st k = true) :
    shouldSkipRuby st surface = true := by
  have hhk : hasKanji surface = true := by
    unfold hasKanji
    rw [List.any_eq_true]
    exact ⟨k, hmem, hk⟩
  have hany : (surface.any fun c => isKanji c && entryPositive st c) = true := by
    rw [List.any_eq_true]
    refine ⟨k, hmem, ?_⟩
    show (isKanji k && entryPositive st k) = true
    rw [hk, hpos]
    rfl
  unfold shouldSkipRuby
  rw [hhk, hany]
  simp

lemma entryPositive_setSkip {st : SkipInfo} {k : Char} {N : Int} (hN : 1 ≤ N) (c : Char)
    (h : entryPositive st k = true) : entryPositive (setSkip st c N) k = true := by
  unfold entryPositive
  rw [lookup_setSkip]
  by_cases hkc : k = c
  · simp [hkc]
    omega
  · simp only [hkc, if_false]
    exact h

lemma all_setSkip {N : Int} (st : SkipInfo) (c : Char)
    (h : (st.all fun e => e.2 == N) = true) :
    ((setSkip st c N).all fun e => e.2 == N) = true := by
  induction st with
  | nil => simp [setSkip]
  | cons e t ih =>
    obtain ⟨k₀, w⟩ := e
    simp only [List.all_cons, Bool.and_eq_true] at h
    by_cases hkc : k₀ == c
    · simp [setSkip, hkc, h.2]
    · have hkc' : (k₀ == c) = false := by simpa using hkc
      rw [setSkip, hkc']
      simp only [Bool.false_eq_true, if_false, List.all_cons, Bool.and_eq_true]
      exact ⟨h.1, ih h.2⟩

lemma splitTextIntoChunks_small {text : Str} {maxLength : Nat} (h : byteLen text ≤ maxLength) :
    splitTextIntoChunks text maxLength = if text.isEmpty then [] else [text] := by
  unfold splitTextIntoChunks
  rw [foldl_splitStep_no_overflow maxLength text [] [] 0 (by simpa using h)]
  cases text with
  | nil => simp
  | cons c t => simp

lemma mem_sentOfParts : ∀ (parts : List Str) (p : Str), p ∈ sentOfParts parts → p ∈ parts := by
  intro parts
  induction parts with
  | nil => intro p hp; simpa [sentOfParts] using hp
  | cons a rest ih =>
    intro p hp
    cases rest with
    | nil =>
      rw [sentOfParts] at hp
      by_cases ha : a.isEmpty
      · simp [ha] at hp
      · by_cases ht : (trim a).isEmpty
        · simp [ha, sentOfChunk, ht] at hp
        · simp [ha, sentOfChunk, ht] at hp
          simp [hp]
    | cons b rest₂ =>
      rw [sentOfParts] at hp
      rw [List.mem_append] at hp
      rcases hp with hp | hp
      · by_cases ha : a.isEmpty
        · simp [ha] at hp
        · by_cases ht : (trim a).isEmpty
          · simp [ha, sentOfChunk, ht] at hp
          · simp [ha, sentOfChunk, ht] at hp
            simp [hp]
      · exact List.mem_cons_of_mem a (ih p hp)

lemma trim_eq_nil_iff (s : Str) : trim s = [] ↔ ∀ c ∈ s, isWs c = true := by
  unfold trim
  rw [List.reverse_eq_nil_iff, List.dropWhile_eq_nil_iff]
  constructor
  · intro h c hc
    have hsplit : s.takeWhile isWs ++ s.dropWhile isWs = s :=
      List.takeWhile_append_dropWhile isWs s
    rw [← hsplit] at hc
    rw [List.mem_append] at hc
    rcases hc with hc | hc
    · exact List.mem_takeWhile_imp hc
    · exact h c (by simpa using List.mem_reverse.mpr hc)
  · intro h c hc
    rw [List.mem_reverse] at hc
    exact h c ((List.dropWhile_sublist isWs).subset hc)

lemma trim_isEmpty_eq_false {s : Str} {c : Char} (hc : c ∈ s) (hw : isWs c = false) :
    (trim s).isEmpty = false := by
  rw [Bool.eq_false_iff]
  intro h
  rw [List.isEmpty_iff] at h
  have := (trim_eq_nil_iff s).mp h c hc
  rw [this] at hw
  cases hw

/-! ## Concrete instances used by witnesses and counterexamples -/

/-- An annotator that fails on every request. -/
def annotFailing : Str → Except Unit (List Word) := fun _ => Except.error ()

/-- An annotator that glosses whatever chunk it receives as one word. -/
def annotWhole : Str → Except Unit (List Word) :=
  fun s => Except.ok [⟨s, some "かん".data, none, []⟩]

def wordKan : Word := ⟨"漢".data, some "かん".data, none, []⟩

def wordYama : Word := ⟨"山".data, some "やま".data, none, []⟩

/-! ## The claims -/

/-- Claim C1: for every input string, splitting it into chunks and re-joining
all chunk texts, re-inserting the page-break marker at every recorded
page-break boundary, yields the original input exactly.  The splitter keeps
page-break markers inline in the chunk texts and records no boundary flags,
so reconstruction is plain concatenation of the chunk texts (first
conjunct); at processing time markers are removed by splitting a chunk on
the token and re-inserted verbatim between the parts, which also
reconstructs the chunk exactly (second conjunct). -/
theorem C1_round_trip (text : Str) (maxLength : Nat) (chunk : Str) :
    (splitTextIntoChunks text maxLength).flatten = text ∧
    List.intercalate pageBreakMarker (jsSplit pageBreakMarker chunk) = chunk := by
  constructor
  · unfold splitTextIntoChunks
    have h := splitStep_flatten maxLength text [] [] 0
    simp only [List.flatten_nil, List.nil_append] at h
    by_cases hcur : (text.foldl (splitStep maxLength) ([], [], 0)).2.1.isEmpty
    · rw [List.isEmpty_iff] at hcur
      rw [hcur, List.append_nil] at h
      simp [hcur, h]
    · have hcur' : (text.foldl (splitStep maxLength) ([], [], 0)).2.1.isEmpty = false := by
        simpa using hcur
      simp only [hcur', Bool.false_eq_true, if_false]
      rw [List.flatten_append]
      simpa using h
  · exact jsSplit_intercalate pageBreakMarker chunk

/-- Claim C5: the merge step decomposes the chunk into copy-through spans,
gloss candidates and alignment misses whose concatenation (copy text,
candidate surfaces) reconstructs the chunk text exactly, and the actual
merge output factors through that decomposition, so the reconstruction is
independent of which candidates the suppressor later suppresses. -/
theorem C5_merge_reconstruction (N : Int) (style : RubyStyle) (st : SkipInfo)
    (chunk : Str) (words : List Word) :
    runsText (alignFrom chunk 0 words) = chunk ∧
    applyRubyFromResponse N style st chunk words =
      renderRuns N style st (alignFrom chunk 0 words) := by
  constructor
  · simpa using runsText_alignFrom chunk words 0
  · exact applyFrom_renderRuns N style chunk words st 0

/-- Claim C6: if a returned word's surface cannot be found in the chunk at or
after the cursor, the word becomes an alignment miss: it is skipped, the
cursor does not advance, processing of the remaining words continues, and
the decomposition still reconstructs the remaining text. -/
theorem C6_alignment_miss (N : Int) (style : RubyStyle) (st : SkipInfo)
    (chunk : Str) (cursor : Nat) (w : Word) (ws : List Word)
    (h : findFrom chunk w.surface cursor = none) :
    alignFrom chunk cursor (w :: ws) = Run.miss w :: alignFrom chunk cursor ws ∧
    applyFrom N style chunk st cursor (w :: ws) =
      applyFrom N style chunk (applyRubyToWord N style st w).2 cursor ws ∧
    runsText (alignFrom chunk cursor (w :: ws)) = chunk.drop cursor := by
  refine ⟨?_, ?_, runsText_alignFrom chunk (w :: ws) cursor⟩
  · rw [alignFrom, h]
  · rw [applyFrom, h]

/-- Witness for C6 at a concrete alignment miss: the word surface 山 does not
occur in the chunk あ. -/
theorem C6_alignment_miss_witness :
    findFrom "あ".data "山".data 0 = none ∧
    applyFrom 1 RubyStyle.inkBracket "あ".data [] 0 [wordYama] =
      applyFrom 1 RubyStyle.inkBracket "あ".data
        (applyRubyToWord 1 RubyStyle.inkBracket [] wordYama).2 0 [] := by
  refine ⟨by decide, ?_⟩
  exact (C6_alignment_miss 1 RubyStyle.inkBracket [] "あ".data 0 wordYama []
    (by decide)).2.1

/-- Claim C7: word-level rendering of surface 漢字 with reading かんじ yields
exactly 漢字《かんじ》 in ink-bracket style and exactly the XHTML ruby element
in XHTML style. -/
theorem C7_style_fidelity :
    renderRuby RubyStyle.inkBracket "漢字".data "かんじ".data = "漢字《かんじ》".data ∧
    renderRuby RubyStyle.xhtml "漢字".data "かんじ".data =
      "<ruby>漢字<rt>かんじ</rt></ruby>".data ∧
    applyInkBracketRuby "漢字".data "かんじ".data = "漢字《かんじ》".data ∧
    applyXhtmlRuby "漢字".data "かんじ".data = "<ruby>漢字<rt>かんじ</rt></ruby>".data := by
  refine ⟨by decide, by decide, by decide, by decide⟩

/-- Claim C3: crossing a page-break marker inside `process` clears the skip
table entirely: the computation after the marker starts from the empty
table whatever the prior table and prior part were, and from the empty
table no surface is ever suppressed, so every kanji glossed before the
marker is eligible again immediately after it. -/
theorem C3_page_break_reset (annot : Str → Except Unit (List Word)) (N : Int)
    (style : RubyStyle) (st : SkipInfo) (p : Str) (rest : List Str) (h : rest ≠ []) :
    (processParts annot N style st (p :: rest)).2 =
      (processParts annot N style [] rest).2 ∧
    (processParts annot N style st (p :: rest)).1 =
      (if p.isEmpty then [] else (processChunk annot N style st p).1) ++
        pageBreakMarker ++ (processParts annot N style [] rest).1 ∧
    (∀ surface : Str, shouldSkipRuby [] surface = false) := by
  cases rest with
  | nil => exact absurd rfl h
  | cons q rest₂ =>
    refine ⟨?_, ?_, shouldSkipRuby_nil⟩
    · rw [processParts]
    · rw [processParts]
      by_cases hp : p.isEmpty
      · simp [hp]
      · have hp' : p.isEmpty = false := by simpa using hp
        simp [hp']

/-- Witness for C3 at a concrete crossing: a table entry from before the
marker is gone after it. -/
theorem C3_page_break_reset_witness :
    (["い".data] : List Str) ≠ [] ∧
    (processParts annotFailing 1 RubyStyle.inkBracket [('漢', 1)]
        ["あ".data, "い".data]).2 =
      (processParts annotFailing 1 RubyStyle.inkBracket [] ["い".data]).2 ∧
    shouldSkipRuby [] "漢".data = false := by
  refine ⟨by simp, ?_, ?_⟩
  · exact (C3_page_break_reset annotFailing 1 RubyStyle.inkBracket [('漢', 1)]
      "あ".data ["い".data] (by simp)).1
  · exact (C3_page_break_reset annotFailing 1 RubyStyle.inkBracket [('漢', 1)]
      "あ".data ["い".data] (by simp)).2.2 "漢".data

/-- Claim C4: if the annotator fails on a chunk, that chunk contributes its
raw text unchanged, the skip table is exactly what it was before the chunk,
and the remaining chunks are processed normally from that same table. -/
theorem C4_fallback (annot : Str → Except Unit (List Word)) (N : Int)
    (style : RubyStyle) (st : SkipInfo) (chunk : Str) (rest : List Str)
    (herr : annot chunk = Except.error ())
    (hm : occursIn pageBreakMarker chunk = false) :
    processChunk annot N style st chunk = (chunk, st) ∧
    processState annot N style st (chunk :: rest) =
      (chunk ++ (processState annot N style st rest).1,
       (processState annot N style st rest).2) := by
  have h1 : processChunk annot N style st chunk = (chunk, st) := by
    unfold processChunk
    by_cases ht : (trim chunk).isEmpty
    · simp [ht]
    · have ht' : (trim chunk).isEmpty = false := by simpa using ht
      simp [ht', herr]
  refine ⟨h1, ?_⟩
  rw [processState]
  simp only [hm, Bool.false_eq_true, if_false, h1]

/-- Witness for C4 at a concrete failing annotator. -/
theorem C4_fallback_witness :
    annotFailing "漢".data = Except.error () ∧
    occursIn pageBreakMarker "漢".data = false ∧
    processChunk annotFailing 1 RubyStyle.inkBracket [('山', 1)] "漢".data =
      ("漢".data, [('山', 1)]) := by
  refine ⟨rfl, by decide, ?_⟩
  exact (C4_fallback annotFailing 1 RubyStyle.inkBracket [('山', 1)] "漢".data []
    rfl (by decide)).1

/-- Claim C2, counterexample: with skip length 1, after the kanji 漢 is
glossed and a further kanji-bearing word 山 is glossed (so the window of 1
kanji-bearing character has elapsed), the next occurrence of 漢 is still
suppressed — the output is 漢《かん》山《やま》漢, not 漢《かん》山《やま》漢《かん》
as the claim requires. -/
theorem C2_counterexample :
    (applyRubyFromResponse 1 RubyStyle.inkBracket [] "漢山漢".data
      [wordKan, wordYama, wordKan]).1 = "漢《かん》山《やま》漢".data ∧
    (applyRubyFromResponse 1 RubyStyle.inkBracket [] "漢山漢".data
      [wordKan, wordYama, wordKan]).1 ≠ "漢《かん》山《やま》漢《かん》".data := by
  refine ⟨by decide, by decide⟩

/-- Claim C2 as amended: for every skip length N ≥ 1, a kanji whose table
entry is positive stays suppressed across the processing of any further
word list — however many kanji-bearing characters are emitted, the window
never elapses — and only the page-break reset (empty table) makes it
eligible again. -/
theorem C2_amended_suppression_persists (N : Int) (style : RubyStyle)
    (st : SkipInfo) (k : Char) (chunk : Str) (words : List Word)
    (hN : 1 ≤ N) (hk : isKanji k = true) (hpos : entryPositive st k = true) :
    entryPositive (applyRubyFromResponse N style st chunk words).2 k = true ∧
    (∀ surface : Str, k ∈ surface →
      shouldSkipRuby (applyRubyFromResponse N style st chunk words).2 surface = true) ∧
    (∀ surface : Str, shouldSkipRuby [] surface = false) := by
  have hset : ∀ s c, entryPositive s k = true → entryPositive (setSkip s c N) k = true :=
    fun s c hsc => entryPositive_setSkip hN c hsc
  have hfin : entryPositive (applyRubyFromResponse N style st chunk words).2 k = true :=
    pres_applyFrom hset style chunk words st 0 hpos
  exact ⟨hfin, fun surface hmem => shouldSkipRuby_of_mem hk hmem hfin, shouldSkipRuby_nil⟩

/-- Witness for the amended C2: 漢 glossed (entry 1), a kanji-bearing word
山 processed, 漢 still suppressed. -/
theorem C2_amended_witness :
    (1 : Int) ≤ 1 ∧ isKanji '漢' = true ∧ entryPositive [('漢', 1)] '漢' = true ∧
    shouldSkipRuby (applyRubyFromResponse 1 RubyStyle.inkBracket [('漢', 1)]
      "山漢".data [wordYama, wordKan]).2 "漢".data = true := by
  refine ⟨le_refl 1, by decide, by decide, ?_⟩
  exact (C2_amended_suppression_persists 1 RubyStyle.inkBracket [('漢', 1)] '漢'
    "山漢".data [wordYama, wordKan] (le_refl 1) (by decide) (by decide)).2.1
    "漢".data (by decide)

/-- Claim C10: the counters of the skip table are never decremented during a
document run: for every annotator, configured skip length N, style and
input text, every entry of the skip table at the end of the run equals
exactly N (a decrement would have produced a value below N), so once a
kanji is glossed it stays suppressed until the next page break or the end
of the run, independently of the value of N. -/
theorem C10_counters_never_decremented (annot : Str → Except Unit (List Word))
    (N : Int) (style : RubyStyle) (text : Str) :
    ((processState annot N style [] (splitTextIntoChunks text 4000)).2.all
      fun e => e.2 == N) = true := by
  have hset : ∀ s c, (s.all fun e => e.2 == N) = true →
      ((setSkip s c N).all fun e => e.2 == N) = true :=
    fun s c hs => all_setSkip s c hs
  exact pres_processState hset (by simp) annot style _ [] (by simp)

/-- Claim C9, counterexample: with configured maximum 4, the input
abcd&#92;nefgh has the line efgh of byte length exactly 4, yet the splitter
(which is character-based and ignores line boundaries) splits that line
across two chunks: no chunk contains it. -/
theorem C9_counterexample :
    byteLen "efgh".data = 4 ∧
    "efgh".data ∈ jsSplit "\n".data "abcd\nefgh".data ∧
    splitTextIntoChunks "abcd\nefgh".data 4 = ["abcd".data, "\nefg".data, "h".data] ∧
    ((splitTextIntoChunks "abcd\nefgh".data 4).all
      fun c => !(occursIn "efgh".data c)) = true := by
  refine ⟨by decide, ?_, by decide, by decide⟩
  have h1 : findPrefixIdx "\n".data "abcd\nefgh".data = some 4 := by decide
  have h2 : findPrefixIdx "\n".data "efgh".data = none := by decide
  rw [jsSplit_eq_some (by decide) h1]
  have h3 : ("abcd\nefgh".data.drop (4 + "\n".data.length)) = "efgh".data := by decide
  rw [h3, jsSplit_eq_none (by decide) h2]
  simp

/-- Claim C9 as amended: the splitter ignores line boundaries; the boundary
property holds for the whole input: an input whose byte length equals the
configured maximum is returned as a single chunk, and an input one byte
over is split into at least two chunks. -/
theorem C9_amended_boundary (text : Str) (maxLength : Nat) :
    (byteLen text = maxLength → text ≠ [] →
      splitTextIntoChunks text maxLength = [text]) ∧
    (byteLen text = maxLength + 1 → 2 ≤ (splitTextIntoChunks text maxLength).length) := by
  constructor
  · intro h hne
    rw [splitTextIntoChunks_small (le_of_eq h)]
    simp [hne]
  · intro h
    have hne : text ≠ [] := by
      intro he
      rw [he] at h
      simp [byteLen] at h
    have h2 : 1 ≤ (text.foldl (splitStep maxLength) ([], [], 0)).1.length := by
      have := foldl_splitStep_flush maxLength text [] [] 0 (Nat.zero_le _) (by omega)
      simpa using this
    have h3 : (text.foldl (splitStep maxLength) ([], [], 0)).2.1 ≠ [] :=
      foldl_splitStep_cur_ne_nil maxLength text hne _
    unfold splitTextIntoChunks
    have h3' : (text.foldl (splitStep maxLength) ([], [], 0)).2.1.isEmpty = false := by
      simpa [List.isEmpty_iff] using h3
    simp only [h3', Bool.false_eq_true, if_false]
    rw [List.length_append]
    simp
    omega

/-- Witness for the amended C9: ab (2 bytes) is one chunk at maximum 2;
abc (3 bytes) is split at maximum 2. -/
theorem C9_amended_witness :
    byteLen "ab".data = 2 ∧ splitTextIntoChunks "ab".data 2 = ["ab".data] ∧
    byteLen "abc".data = 2 + 1 ∧ 2 ≤ (splitTextIntoChunks "abc".data 2).length := by
  refine ⟨by decide, ?_, by decide, ?_⟩
  · exact (C9_amended_boundary "ab".data 2).1 (by decide) (by decide)
  · exact (C9_amended_boundary "abc".data 2).2 (by decide)

/-! ## C8: the page-break marker and the texts sent to the annotator

With the default 4000-byte budget the character-based splitter can place a
chunk boundary inside an occurrence of `｛改頁｝`; neither resulting chunk
then contains the full token, so `process` treats both as plain chunks and
the token fragments are handed to the annotation service.  `badTextC8`
exhibits this: 3995 ASCII characters followed by the marker put the byte
budget at 3998 after `｛`, so the flush falls between `｛` and `改`. -/

def badTextC8 : Str := List.replicate 3995 'a' ++ pageBreakMarker

lemma byteLen_replicate (n : Nat) (c : Char) :
    byteLen (List.replicate n c) = n * utf8Len c := by
  induction n with
  | zero => simp [byteLen]
  | succ n ih =>
    rw [List.replicate_succ, byteLen_cons, ih, Nat.succ_mul]
    omega

lemma findPrefixIdx_marker_repl (n : Nat) :
    findPrefixIdx pageBreakMarker (List.replicate n 'a' ++ ['｛']) = none := by
  induction n with
  | zero => decide
  | succ n ih =>
    rw [List.replicate_succ, List.cons_append]
    have hp : pageBreakMarker.isPrefixOf ('a' :: (List.replicate n 'a' ++ ['｛'])) = false :=
      rfl
    rw [findPrefixIdx, hp]
    simp [ih]

lemma foldl_badTextC8 :
    badTextC8.foldl (splitStep 4000) ([], [], 0) =
      ([List.replicate 3995 'a' ++ ['｛']], ['改', '頁', '｝'], 9) := by
  have hbl : byteLen (List.replicate 3995 'a') = 3995 := by
    rw [byteLen_replicate]
    decide
  unfold badTextC8
  rw [List.foldl_append]
  rw [foldl_splitStep_no_overflow 4000 _ [] [] 0 (by rw [hbl]; norm_num)]
  rw [hbl]
  have hm : pageBreakMarker = ['｛', '改', '頁', '｝'] := rfl
  rw [hm]
  simp only [List.nil_append, Nat.zero_add, List.foldl_cons, List.foldl_nil]
  have hu1 : utf8Len '｛' = 3 := by decide
  have hu2 : utf8Len '改' = 3 := by decide
  have hu3 : utf8Len '頁' = 3 := by decide
  have hu4 : utf8Len '｝' = 3 := by decide
  have st1 : splitStep 4000 (([] : List Str), List.replicate 3995 'a', 3995) '｛' =
      ([], List.replicate 3995 'a' ++ ['｛'], 3998) := by
    unfold splitStep
    rw [hu1]
    norm_num
  have st2 : splitStep 4000 (([] : List Str), List.replicate 3995 'a' ++ ['｛'], 3998) '改' =
      ([List.replicate 3995 'a' ++ ['｛']], ['改'], 3) := by
    unfold splitStep
    rw [hu2]
    norm_num
  have st3 : splitStep 4000 ([List.replicate 3995 'a' ++ ['｛']], ['改'], 3) '頁' =
      ([List.replicate 3995 'a' ++ ['｛']], ['改', '頁'], 6) := by
    unfold splitStep
    rw [hu3]
    norm_num
  have st4 : splitStep 4000 ([List.replicate 3995 'a' ++ ['｛']], ['改', '頁'], 6) '｝' =
      ([List.replicate 3995 'a' ++ ['｛']], ['改', '頁', '｝'], 9) := by
    unfold splitStep
    rw [hu4]
    norm_num
  rw [st1, st2, st3, st4]

lemma chunks_badTextC8 :
    splitTextIntoChunks badTextC8 4000 =
      [List.replicate 3995 'a' ++ ['｛'], ['改', '頁', '｝']] := by
  unfold splitTextIntoChunks
  rw [foldl_badTextC8]
  rfl

lemma sentTexts_badTextC8 :
    sentTexts badTextC8 = [List.replicate 3995 'a' ++ ['｛'], ['改', '頁', '｝']] := by
  unfold sentTexts
  rw [chunks_badTextC8]
  have hA : occursIn pageBreakMarker (List.replicate 3995 'a' ++ ['｛']) = false := by
    rw [occursIn, findPrefixIdx_marker_repl]
    rfl
  have hB : occursIn pageBreakMarker ['改', '頁', '｝'] = false := by decide
  have hmemA : 'a' ∈ List.replicate 3995 'a' ++ ['｛'] :=
    List.mem_append_left _ (List.mem_replicate.mpr ⟨by norm_num, rfl⟩)
  have htA : (trim (List.replicate 3995 'a' ++ ['｛'])).isEmpty = false :=
    trim_isEmpty_eq_false hmemA (by decide)
  have htB : (trim ['改', '頁', '｝']).isEmpty = false := by decide
  simp only [List.map_cons, List.map_nil, hA, hB, Bool.false_eq_true, if_false,
    sentOfChunk, htA, htB, List.flatten_cons, List.flatten_nil, List.append_nil]
  rfl

/-- Claim C8, counterexample: `badTextC8` contains a genuine `｛改頁｝`
occurrence, yet the run sends the text 改頁｝ — three of the four characters
of that very occurrence — to the annotation service, because the size-based
chunk boundary falls inside the token and neither chunk contains it
verbatim. -/
theorem C8_counterexample :
    occursIn pageBreakMarker badTextC8 = true ∧
    pageBreakMarker = '｛' :: "改頁｝".data ∧
    "改頁｝".data ∈ sentTexts badTextC8 := by
  refine ⟨?_, rfl, ?_⟩
  · cases hf : findPrefixIdx pageBreakMarker badTextC8 with
    | none =>
      exfalso
      have hnone := findPrefixIdx_none hf 3995
      apply hnone
      have : badTextC8.drop 3995 = pageBreakMarker := by
        unfold badTextC8
        exact List.drop_left' (List.length_replicate 3995 'a')
      rw [this]
    | some i => simp [occursIn, hf]
  · rw [sentTexts_badTextC8]
    have hd : "改頁｝".data = ['改', '頁', '｝'] := rfl
    rw [hd]
    exact List.mem_cons_of_mem _ (List.mem_cons_self _ _)

/-- Claim C8 as amended: for any input that fits within a single size-bounded
chunk, every occurrence of `｛改頁｝` is split out at the processing stage
and no text sent to the annotation service contains the token.  (When the
input spans several chunks a token straddling a chunk boundary is not
recognized and its fragments are sent, as `C8_counterexample` shows.) -/
theorem C8_amended_single_chunk (text : Str) (h : byteLen text ≤ 4000) :
    ((sentTexts text).all fun s => !(occursIn pageBreakMarker s)) = true := by
  unfold sentTexts
  rw [splitTextIntoChunks_small h]
  by_cases he : text.isEmpty
  · simp [he]
  · have he' : text.isEmpty = false := by simpa using he
    simp only [he', Bool.false_eq_true, if_false, List.map_cons, List.map_nil,
      List.flatten_cons, List.flatten_nil, List.append_nil]
    by_cases hocc : occursIn pageBreakMarker text
    · rw [if_pos hocc, List.all_eq_true]
      intro s hs
      have hmem := mem_sentOfParts _ s hs
      have hfree := mem_jsSplit_not_occurs
        (by decide : pageBreakMarker.isEmpty = false) text s hmem
      simp [hfree]
    · have hocc' : occursIn pageBreakMarker text = false := by simpa using hocc
      rw [if_neg (by simp [hocc'])]
      unfold sentOfChunk
      by_cases ht : (trim text).isEmpty
      · simp [ht]
      · have ht' : (trim text).isEmpty = false := by simpa using ht
        simp [ht', hocc']

/-- Witness for the amended C8: a short input containing the marker. -/
theorem C8_amended_witness :
    byteLen "あ｛改頁｝い".data ≤ 4000 ∧
    ((sentTexts "あ｛改頁｝い".data).all
      fun s => !(occursIn pageBreakMarker s)) = true := by
  refine ⟨by decide, ?_⟩
  exact C8_amended_single_chunk "あ｛改頁｝い".data (by decide)

end Furigana
